import Mathlib

/-!
Shallow embedding of the contributor identity resolution core of
`scripts/postprocess-manifests.ts`.

JS strings are modelled as Lean `String` (a wrapped `List Char`); the JS
relational operator `<` on strings (code-unit lexicographic comparison) is
modelled by the structural Bool comparison `chLtB` below, which agrees with
the JS semantics on the scalar values that occur here.  JS `Map` objects are
modelled as association lists in key-insertion order, since `Map` iteration
order is insertion order and `set` on an existing key updates in place.
-/

namespace PostprocessManifests

/-- Code-unit lexicographic strict comparison of character lists, the
semantics of the JS `<` operator on strings. -/
def chLtB : List Char → List Char → Bool
  | _, [] => false
  | [], _ :: _ => true
  | a :: as, b :: bs =>
    if a.toNat < b.toNat then true
    else if b.toNat < a.toNat then false
    else chLtB as bs

/-- Code-unit lexicographic non-strict comparison of character lists. -/
def chLeB : List Char → List Char → Bool
  | [], _ => true
  | _ :: _, [] => false
  | a :: as, b :: bs =>
    if a.toNat < b.toNat then true
    else if b.toNat < a.toNat then false
    else chLeB as bs

/-- The JS `a < b` comparison on strings. -/
def jsLtB (a b : String) : Bool := chLtB a.toList b.toList

/-- The JS `a <= b` comparison on strings (equivalently, `localeCompare <= 0`
for the day-precision ISO date strings compared here, on which the default
collation agrees with code-point order). -/
def jsLeB (a b : String) : Bool := chLeB a.toList b.toList

/-- `ContributorData` from `postprocess-manifests.ts`: one contributor as
seen under one contact address (`email`) for one extension. -/
structure ContributorData where
  email : String
  name : String
  commits : Nat
  firstCommit : String
deriving DecidableEq

/-- `AuthorOutput` from `postprocess-manifests.ts`: a resolved identity. -/
structure AuthorOutput where
  github : Option String
  name : String
  commits : Nat
  firstCommit : String
deriving DecidableEq

/-- The fixed anonymization domain of the noreply-address pattern. -/
def noreplyDomain : List Char := "@users.noreply.github.com".toList

/-- The effect of the regex `^(?:\d+\+)?([^@]+)@...$` on the local part `l`
(known to be nonempty and free of `@`): the greedy optional group `(?:\d+\+)?`
consumes the maximal digit run of `l` exactly when it is nonempty, is
followed by `+`, and leaves a nonempty remainder for `([^@]+)`; any shorter
digit run is followed by a digit, not `+`, so no other split can match.
Otherwise the optional group is skipped and the whole local part is the
capture. -/
def localHandle (l : List Char) : List Char :=
  match l.takeWhile Char.isDigit, l.dropWhile Char.isDigit with
  | _ :: _, '+' :: c :: cs => c :: cs
  | _, _ => l

/-- `extractGithubFromNoreply` (lines 59-62): matches
`^(?:\d+\+)?([^@]+)@users\.noreply\.github\.com$` and returns the capture.
A match requires the address to be `local ++ noreplyDomain` with `local`
nonempty and free of `@` (the pattern before the literal `@` cannot consume
an `@`, and the domain part contains none). -/
def extractGithubFromNoreply (email : String) : Option String :=
  let cs := email.toList
  let n := cs.length - noreplyDomain.length
  if noreplyDomain.length < cs.length ∧ cs.drop n = noreplyDomain
      ∧ (cs.take n).all (fun c => c != '@')
  then some (String.mk (localHandle (cs.take n)))
  else none

/-- ASCII lower-casing of one character (the effect of JS `toLowerCase()` on
the ASCII addresses handled here). -/
def lowerChar (c : Char) : Char :=
  if 65 ≤ c.toNat ∧ c.toNat ≤ 90 then Char.ofNat (c.toNat + 32) else c

/-- JS `toLowerCase()` on an ASCII string. -/
def lowerString (s : String) : String := String.mk (s.toList.map lowerChar)

/-- The identity-merge key (line 134):
`github?.toLowerCase() ?? c.email.toLowerCase()`. -/
def identityKey (email : String) : String :=
  match extractGithubFromNoreply email with
  | some g => lowerString g
  | none => lowerString email

/-- Lookup in an association list with string keys (JS `Map.get`). -/
def alookup (k : String) : List (String × α) → Option α
  | [] => none
  | (k0, v) :: rest => if k0 = k then some v else alookup k rest

/-- The common upsert pattern on a JS `Map` held as an association list in
insertion order: if the key derived from `c` is present, replace its value in
place using `mergef`; otherwise append `(key, initf c)` at the end. -/
def upsert (keyf : β → String) (initf : β → α) (mergef : α → β → α) :
    List (String × α) → β → List (String × α)
  | [], c => [(keyf c, initf c)]
  | (k0, v) :: rest, c =>
    if k0 = keyf c then (k0, mergef v c) :: rest
    else (k0, v) :: upsert keyf initf mergef rest c

/-- The in-place update of an existing `byEmail` entry (lines 120-123):
commits add; `firstCommit` is replaced only when strictly earlier; the name
is left unchanged. -/
def addContribution (v c : ContributorData) : ContributorData :=
  { v with
    commits := v.commits + c.commits,
    firstCommit := if jsLtB c.firstCommit v.firstCommit then c.firstCommit else v.firstCommit }

/-- `byEmail.set(c.email, {...c})` for a historical record (line 114):
plain `Map.set`, overwriting any existing entry for that email. -/
def setByEmail : List (String × ContributorData) → ContributorData → List (String × ContributorData) :=
  upsert (fun c => c.email) (fun c => c) (fun _ c => c)

/-- One step of the live-record loop (lines 117-127). -/
def mergeByEmail : List (String × ContributorData) → ContributorData → List (String × ContributorData) :=
  upsert (fun c => c.email) (fun c => c) addContribution

/-- The per-address source merge of `getAuthors` (lines 111-127). -/
def byEmail (historical keiyoushi : List ContributorData) : List (String × ContributorData) :=
  keiyoushi.foldl mergeByEmail (historical.foldl setByEmail [])

/-- The fresh `byIdentity` entry (lines 147-152). -/
def initIdentity (c : ContributorData) : AuthorOutput :=
  ⟨extractGithubFromNoreply c.email, c.name, c.commits, c.firstCommit⟩

/-- The in-place update of an existing `byIdentity` entry (lines 137-145):
commits add; on a strictly earlier date both the date and the name are
replaced; a derivable handle is recorded only when none is present yet. -/
def mergeIdentity (a : AuthorOutput) (c : ContributorData) : AuthorOutput :=
  let github := extractGithubFromNoreply c.email
  let a1 := if jsLtB c.firstCommit a.firstCommit
    then { a with commits := a.commits + c.commits, firstCommit := c.firstCommit, name := c.name }
    else { a with commits := a.commits + c.commits }
  if github.isSome && a1.github.isNone then { a1 with github := github } else a1

/-- One step of the identity-dedup loop (lines 132-154). -/
def dedupStep : List (String × AuthorOutput) → ContributorData → List (String × AuthorOutput) :=
  upsert (fun c => identityKey c.email) initIdentity mergeIdentity

/-- The identity-dedup phase of `getAuthors` (lines 129-154), applied to the
values of the `byEmail` map in insertion order. -/
def byIdentity (records : List ContributorData) : List (String × AuthorOutput) :=
  records.foldl dedupStep []

/-- The sort comparator of line 157:
`a.firstCommit.localeCompare(b.firstCommit) <= 0`. -/
def authorLe (a b : AuthorOutput) : Prop := jsLeB a.firstCommit b.firstCommit = true

instance : DecidableRel authorLe :=
  fun a b => inferInstanceAs (Decidable (jsLeB a.firstCommit b.firstCommit = true))

/-- The values of the `byEmail` map in insertion order (`byEmail.values()`,
line 132): the per-address merge of the two sources as a record list.  The
first argument plays the historical role, the second the live role. -/
def mergeContacts (a b : List ContributorData) : List ContributorData :=
  (byEmail a b).map Prod.snd

/-- `getAuthors` (lines 105-158) on already-materialized inputs: the
historical records and the live (keiyoushi) records.  JS `Array.sort` is
stable; `List.insertionSort` with a total preorder is the matching stable
sort. -/
def getAuthors (historical keiyoushi : List ContributorData) : List AuthorOutput :=
  List.insertionSort authorLe
    ((byIdentity (mergeContacts historical keiyoushi)).map Prod.snd)

/-- Splitting a character list at every occurrence of `sep`
(JS `String.split`). -/
def splitOnChar (sep : Char) : List Char → List (List Char)
  | [] => [[]]
  | c :: cs =>
    match splitOnChar sep cs with
    | [] => [[]]
    | p :: ps => if c = sep then [] :: p :: ps else (c :: p) :: ps

/-- Whitespace trimmed by JS `String.trim` (the characters relevant here). -/
def isJsSpace (c : Char) : Bool :=
  c = ' ' || c = '\t' || c = '\n' || c = '\r' || c = '\x0b' || c = '\x0c'

/-- JS `output.trim()`. -/
def trimChars (l : List Char) : List Char :=
  ((l.dropWhile isJsSpace).reverse.dropWhile isJsSpace).reverse

/-- Line 82-83: `const [email, name, date] = line.split("|")` followed by the
guard `if (!email || !name || !date) continue` — the first three fields must
exist and be nonempty; extra fields are ignored. -/
def parseLine (line : String) : Option (String × String × String) :=
  match splitOnChar '|' line.toList with
  | email :: name :: date :: _ =>
    if email ≠ [] ∧ name ≠ [] ∧ date ≠ [] then
      some (String.mk email, String.mk name, String.mk date)
    else none
  | _ => none

/-- Line 85: `date.split("T")[0]`. -/
def dateOnly (date : String) : String :=
  String.mk (date.toList.takeWhile (fun c => c != 'T'))

/-- The per-author tally held in the parser's `byEmail` map. -/
structure Tally where
  name : String
  commits : Nat
  firstCommit : String
deriving DecidableEq

/-- The in-place update of an existing tally (lines 88-92). -/
def bumpTally (t : Tally) (d : String) : Tally :=
  ⟨t.name, t.commits + 1, if jsLtB d t.firstCommit then d else t.firstCommit⟩

/-- One iteration of the parser loop (lines 81-96): a line missing any of
the three fields is skipped, otherwise the tally for its address is
created or updated. -/
def tallyStep (m : List (String × Tally)) (line : String) : List (String × Tally) :=
  match parseLine line with
  | some (email, name, date) =>
    upsert (fun p => p.1) (fun p => ⟨p.2.1, 1, dateOnly p.2.2⟩)
      (fun t p => bumpTally t (dateOnly p.2.2)) m (email, name, date)
  | none => m

/-- The parser loop over `commits.reverse()` (line 81). -/
def tallyLines (lines : List String) : List (String × Tally) :=
  lines.reverse.foldl tallyStep []

/-- Line 78: `output.trim().split("\n").filter(Boolean)`. -/
def logLines (output : String) : List String :=
  ((splitOnChar '\n' (trimChars output.toList)).map String.mk).filter (fun l => l != "")

/-- The pure part of `getKeiyoushiCommits` (lines 78-99): parse the raw log
text into one `ContributorData` per address, in map insertion order. -/
def parseCommitLog (output : String) : List ContributorData :=
  (tallyLines (logLines output)).map (fun p => ⟨p.1, p.2.name, p.2.commits, p.2.firstCommit⟩)

/-- `getKeiyoushiCommits` (lines 64-103) with its two effects made explicit:
`srcExists` models the `fs.existsSync(srcPath)` test (lines 68-70) and
`logOutput = none` models `execSync` throwing, caught by the surrounding
`try`/`catch` (lines 100-102).  Both failure paths return the empty list. -/
def getKeiyoushiCommits (srcExists : Bool) (logOutput : Option String) : List ContributorData :=
  if srcExists then
    match logOutput with
    | some out => parseCommitLog out
    | none => []
  else []

/-- `getAuthors` with the version-control query effects made explicit. -/
def getAuthorsFull (historical : List ContributorData) (srcExists : Bool)
    (logOutput : Option String) : List AuthorOutput :=
  getAuthors historical (getKeiyoushiCommits srcExists logOutput)

/-- The running minimum maintained by the `firstCommit` updates. -/
def minDate (d : String) (ds : List String) : String :=
  ds.foldl (fun x y => if jsLtB y x then y else x) d

/-- The keys of the map, in insertion order. -/
def akeys (m : List (String × α)) : List String := m.map Prod.fst

/-- The value accumulated at one key by an upsert loop, given the records
mapped to that key in processing order: absent when there are none,
otherwise the fold of the merge function from the initial value of the
first. -/
def foldOption (fm : α → β → α) (fi : β → α) : List β → Option α
  | [] => none
  | c :: cs => some (cs.foldl fm (fi c))

/-- Aggregate commit count recorded for one contact address in a record
list. -/
def countOf (l : List ContributorData) (e : String) : Nat :=
  ((l.filter (fun c => c.email == e)).map (fun c => c.commits)).sum

/-! ### Algebra of the code-unit comparison -/

theorem chLeB_refl : ∀ l : List Char, chLeB l l = true
  | [] => rfl
  | a :: as => by simp [chLeB, Nat.lt_irrefl, chLeB_refl as]

theorem chLeB_total : ∀ a b : List Char, chLeB a b = true ∨ chLeB b a = true
  | [], _ => Or.inl rfl
  | _ :: _, [] => Or.inr rfl
  | a :: as, b :: bs => by
    rcases Nat.lt_trichotomy a.toNat b.toNat with h | h | h
    · exact Or.inl (by simp [chLeB, h])
    · rcases chLeB_total as bs with ih | ih
      · exact Or.inl (by simp [chLeB, h, Nat.lt_irrefl, ih])
      · exact Or.inr (by simp [chLeB, h, Nat.lt_irrefl, ih])
    · exact Or.inr (by simp [chLeB, h])

theorem chLeB_trans : ∀ a b c : List Char,
    chLeB a b = true → chLeB b c = true → chLeB a c = true
  | [], _, _, _, _ => rfl
  | _ :: _, [], _, h1, _ => by simp [chLeB] at h1
  | _ :: _, _ :: _, [], _, h2 => by simp [chLeB] at h2
  | a :: as, b :: bs, c :: cs, h1, h2 => by
    simp only [chLeB] at h1 h2 ⊢
    rcases Nat.lt_trichotomy a.toNat b.toNat with hab | hab | hab <;>
      rcases Nat.lt_trichotomy b.toNat c.toNat with hbc | hbc | hbc
    · simp [Nat.lt_trans hab hbc]
    · simp [hbc ▸ hab]
    · simp [hbc, Nat.lt_asymm hbc, Nat.lt_irrefl] at h2
    · simp [hab ▸ hbc]
    · simp only [hab, hbc, Nat.lt_irrefl, if_false] at h1 h2 ⊢
      exact chLeB_trans as bs cs h1 h2
    · simp [hbc, Nat.lt_asymm hbc, Nat.lt_irrefl] at h2
    · simp [hab, Nat.lt_asymm hab, Nat.lt_irrefl] at h1
    · simp [hab, Nat.lt_asymm hab, Nat.lt_irrefl] at h1
    · simp [hab, Nat.lt_asymm hab, Nat.lt_irrefl] at h1

theorem chLtB_not_le : ∀ a b : List Char, chLtB a b = !chLeB b a
  | [], [] => rfl
  | [], _ :: _ => rfl
  | _ :: _, [] => rfl
  | a :: as, b :: bs => by
    simp only [chLtB, chLeB]
    rcases Nat.lt_trichotomy a.toNat b.toNat with h | h | h
    · simp [h, Nat.lt_asymm h]
    · simp [h, Nat.lt_irrefl, chLtB_not_le as bs]
    · simp [h, Nat.lt_asymm h]

theorem jsLeB_refl (a : String) : jsLeB a a = true := chLeB_refl _

theorem jsLeB_total (a b : String) : jsLeB a b = true ∨ jsLeB b a = true :=
  chLeB_total _ _

theorem jsLeB_trans {a b c : String} (h1 : jsLeB a b = true) (h2 : jsLeB b c = true) :
    jsLeB a c = true :=
  chLeB_trans _ _ _ h1 h2

theorem jsLtB_le {a b : String} (h : jsLtB a b = true) : jsLeB a b = true := by
  have he := chLtB_not_le a.toList b.toList
  rw [show chLtB a.toList b.toList = jsLtB a b from rfl, h] at he
  rcases chLeB_total a.toList b.toList with h' | h'
  · exact h'
  · rw [h'] at he; simp at he

theorem jsLtB_false_ge {a b : String} (h : jsLtB a b = false) : jsLeB b a = true := by
  have he := chLtB_not_le a.toList b.toList
  rw [show chLtB a.toList b.toList = jsLtB a b from rfl, h] at he
  cases hcb : chLeB b.toList a.toList
  · rw [hcb] at he; simp at he
  · exact hcb

theorem minDate_nil (d : String) : minDate d [] = d := rfl

theorem minDate_cons (d x : String) (ds : List String) :
    minDate d (x :: ds) = minDate (if jsLtB x d then x else d) ds := rfl

theorem minDate_mem (d : String) (ds : List String) :
    minDate d ds = d ∨ minDate d ds ∈ ds := by
  induction ds generalizing d with
  | nil => exact Or.inl rfl
  | cons x ds ih =>
    rw [minDate_cons]
    rcases ih (if jsLtB x d then x else d) with h | h
    · rw [h]
      cases hxd : jsLtB x d
      · simp [hxd]
      · simp [hxd]
    · exact Or.inr (List.mem_cons_of_mem _ h)

theorem minDate_le_init (d : String) (ds : List String) :
    jsLeB (minDate d ds) d = true := by
  induction ds generalizing d with
  | nil => exact jsLeB_refl d
  | cons x ds ih =>
    rw [minDate_cons]
    cases hxd : jsLtB x d
    · simp only [hxd, Bool.false_eq_true, if_false]
      exact ih d
    · simp only [hxd, if_true]
      exact jsLeB_trans (ih x) (jsLtB_le hxd)

theorem minDate_le_mem (d : String) (ds : List String) :
    ∀ x ∈ ds, jsLeB (minDate d ds) x = true := by
  induction ds generalizing d with
  | nil => simp
  | cons y ds ih =>
    intro x hx
    rw [minDate_cons]
    rcases List.mem_cons.mp hx with rfl | hx
    · cases hxd : jsLtB x d
      · simp only [hxd, Bool.false_eq_true, if_false]
        exact jsLeB_trans (minDate_le_init d ds) (jsLtB_false_ge hxd)
      · simp only [hxd, if_true]
        exact minDate_le_init x ds
    · exact ih _ x hx

/-! ### Association-list lemmas for the `Map` model -/

section UpsertLemmas

variable {α β : Type} (kf : β → String) (fi : β → α) (fm : α → β → α)

theorem upsert_nil (c : β) : upsert kf fi fm [] c = [(kf c, fi c)] := rfl

theorem upsert_cons (k0 : String) (v : α) (m : List (String × α)) (c : β) :
    upsert kf fi fm ((k0, v) :: m) c =
      if k0 = kf c then (k0, fm v c) :: m else (k0, v) :: upsert kf fi fm m c := rfl

theorem alookup_upsert_self (m : List (String × α)) (c : β) :
    alookup (kf c) (upsert kf fi fm m c) =
      some ((alookup (kf c) m).elim (fi c) (fun v => fm v c)) := by
  induction m with
  | nil => simp [upsert, alookup]
  | cons p m ih =>
    obtain ⟨k0, v⟩ := p
    by_cases h : k0 = kf c
    · subst h; simp [upsert, alookup]
    · simp [upsert, alookup, h, ih]

theorem alookup_upsert_ne (m : List (String × α)) (c : β) (k : String) (h : k ≠ kf c) :
    alookup k (upsert kf fi fm m c) = alookup k m := by
  induction m with
  | nil => simp [upsert, alookup, Ne.symm h]
  | cons p m ih =>
    obtain ⟨k0, v⟩ := p
    by_cases h0 : k0 = kf c
    · subst h0; simp [upsert_cons, alookup, Ne.symm h]
    · rw [upsert_cons, if_neg h0]
      by_cases hk : k0 = k <;> simp [alookup, hk, ih]

theorem upsert_not_mem (m : List (String × α)) (c : β) (h : kf c ∉ akeys m) :
    upsert kf fi fm m c = m ++ [(kf c, fi c)] := by
  induction m with
  | nil => rfl
  | cons p m ih =>
    obtain ⟨k0, v⟩ := p
    simp only [akeys, List.map_cons, List.mem_cons] at h
    push_neg at h
    simp [upsert, Ne.symm h.1, ih h.2, akeys]

theorem akeys_upsert_mem (m : List (String × α)) (c : β) (h : kf c ∈ akeys m) :
    akeys (upsert kf fi fm m c) = akeys m := by
  induction m with
  | nil => simp [akeys] at h
  | cons p m ih =>
    obtain ⟨k0, v⟩ := p
    by_cases h0 : k0 = kf c
    · simp [upsert_cons, h0, akeys]
    · simp only [akeys, List.map_cons, List.mem_cons] at h
      rcases h with h | h
      · exact absurd h.symm h0
      · have hm := ih h
        simp only [akeys] at hm
        simp [upsert_cons, h0, akeys, hm]

theorem akeys_upsert_nodup (m : List (String × α)) (c : β) (h : (akeys m).Nodup) :
    (akeys (upsert kf fi fm m c)).Nodup := by
  by_cases hm : kf c ∈ akeys m
  · rw [akeys_upsert_mem kf fi fm m c hm]; exact h
  · rw [upsert_not_mem kf fi fm m c hm]
    have he : akeys (m ++ [(kf c, fi c)]) = akeys m ++ [kf c] := by simp [akeys]
    rw [he, List.nodup_append]
    refine ⟨h, List.nodup_singleton _, fun x hx => ?_⟩
    simp only [List.mem_singleton]
    intro hxe
    exact hm (hxe ▸ hx)

theorem alookup_eq_none (k : String) (m : List (String × α)) :
    alookup k m = none ↔ k ∉ akeys m := by
  induction m with
  | nil => simp [alookup, akeys]
  | cons p m ih =>
    obtain ⟨k0, v⟩ := p
    by_cases h : k0 = k
    · subst h
      simp [alookup, akeys]
    · simp only [alookup, if_neg h, akeys, List.map_cons, List.mem_cons]
      rw [ih]
      simp only [akeys]
      constructor
      · intro hk hor
        rcases hor with he | hm
        · exact h he.symm
        · exact hk hm
      · intro hk hm
        exact hk (Or.inr hm)

theorem mem_of_alookup {k : String} {v : α} {m : List (String × α)}
    (h : alookup k m = some v) : (k, v) ∈ m := by
  induction m with
  | nil => simp [alookup] at h
  | cons p m ih =>
    obtain ⟨k0, v0⟩ := p
    by_cases h0 : k0 = k
    · subst h0
      have h' : v0 = v := by simpa [alookup] using h
      subst h'
      exact List.mem_cons_self _ _
    · simp only [alookup, if_neg h0] at h
      exact List.mem_cons_of_mem _ (ih h)

theorem alookup_of_mem {k : String} {v : α} {m : List (String × α)}
    (hnd : (akeys m).Nodup) (h : (k, v) ∈ m) : alookup k m = some v := by
  induction m with
  | nil => simp at h
  | cons p m ih =>
    obtain ⟨k0, v0⟩ := p
    simp only [akeys, List.map_cons, List.nodup_cons] at hnd
    rcases List.mem_cons.mp h with heq | hmem
    · cases heq
      simp [alookup]
    · have hk : k0 ≠ k := by
        intro he
        subst he
        exact hnd.1 (List.mem_map_of_mem Prod.fst hmem)
      simp only [alookup, if_neg hk]
      exact ih hnd.2 hmem

theorem alookup_foldl_upsert (rs : List β) (m : List (String × α)) (k : String) :
    alookup k (rs.foldl (upsert kf fi fm) m) =
      (alookup k m).elim (foldOption fm fi (rs.filter fun c => kf c == k))
        (fun v => some ((rs.filter fun c => kf c == k).foldl fm v)) := by
  induction rs generalizing m with
  | nil => cases h : alookup k m <;> simp [h, foldOption]
  | cons c rs ih =>
    rw [List.foldl_cons, ih]
    by_cases hk : kf c = k
    · have h1 := alookup_upsert_self kf fi fm m c
      rw [hk] at h1
      rw [h1]
      have hf : (c :: rs).filter (fun c => kf c == k) =
          c :: rs.filter (fun c => kf c == k) := by
        simp [List.filter_cons, hk]
      rw [hf]
      cases h : alookup k m <;> simp [h, List.foldl_cons, foldOption]
    · rw [alookup_upsert_ne kf fi fm m c k (fun he => hk he.symm)]
      have hf : (c :: rs).filter (fun c => kf c == k) =
          rs.filter (fun c => kf c == k) := by
        simp [List.filter_cons, hk]
      rw [hf]

theorem mem_akeys_foldl_upsert (rs : List β) (m : List (String × α)) (k : String) :
    k ∈ akeys (rs.foldl (upsert kf fi fm) m) ↔ k ∈ akeys m ∨ ∃ c ∈ rs, kf c = k := by
  have hiff : ∀ mm : List (String × α), k ∈ akeys mm ↔ ¬ alookup k mm = none := by
    intro mm
    rw [alookup_eq_none]
    exact not_not.symm
  rw [hiff, alookup_foldl_upsert kf fi fm rs m k]
  cases h : alookup k m with
  | some v =>
    simp only [Option.elim]
    constructor
    · intro _
      exact Or.inl ((hiff m).mpr (by simp [h]))
    · intro _
      simp
  | none =>
    simp only [Option.elim]
    cases hf : rs.filter (fun c => kf c == k) with
    | nil =>
      simp only [foldOption]
      constructor
      · intro hc; exact (hc trivial).elim
      · rintro (hm | ⟨c, hc, hkc⟩)
        · exact absurd ((hiff m).mp hm) (by simp [h])
        · have hcf : c ∈ rs.filter (fun c => kf c == k) := by
            rw [List.mem_filter]
            exact ⟨hc, by simp [hkc]⟩
          rw [hf] at hcf
          simp at hcf
    | cons c cs =>
      simp only [foldOption]
      constructor
      · intro _
        right
        have hcf : c ∈ rs.filter (fun c => kf c == k) := by rw [hf]; simp
        rw [List.mem_filter] at hcf
        exact ⟨c, hcf.1, by simpa using hcf.2⟩
      · intro _
        simp

theorem akeys_foldl_upsert_nodup (rs : List β) (m : List (String × α))
    (h : (akeys m).Nodup) : (akeys (rs.foldl (upsert kf fi fm) m)).Nodup := by
  induction rs generalizing m with
  | nil => exact h
  | cons c rs ih => exact ih _ (akeys_upsert_nodup kf fi fm m c h)

theorem upsert_prop (P : String × α → Prop)
    (hinit : ∀ c : β, P (kf c, fi c))
    (hmerge : ∀ (c : β) (v : α), P (kf c, v) → P (kf c, fm v c))
    (m : List (String × α)) (c : β) (hm : ∀ p ∈ m, P p) :
    ∀ p ∈ upsert kf fi fm m c, P p := by
  induction m with
  | nil =>
    intro p hp
    simp only [upsert, List.mem_singleton] at hp
    exact hp ▸ hinit c
  | cons q m ih =>
    obtain ⟨k0, v⟩ := q
    intro p hp
    by_cases h0 : k0 = kf c
    · subst h0
      rw [upsert_cons, if_pos rfl] at hp
      rcases List.mem_cons.mp hp with rfl | hp
      · exact hmerge c v (hm _ (List.mem_cons_self _ _))
      · exact hm _ (List.mem_cons_of_mem _ hp)
    · rw [upsert_cons, if_neg h0] at hp
      rcases List.mem_cons.mp hp with rfl | hp
      · exact hm _ (List.mem_cons_self _ _)
      · exact ih (fun q hq => hm q (List.mem_cons_of_mem _ hq)) p hp

theorem foldl_upsert_prop (P : String × α → Prop)
    (hinit : ∀ c : β, P (kf c, fi c))
    (hmerge : ∀ (c : β) (v : α), P (kf c, v) → P (kf c, fm v c))
    (rs : List β) (m : List (String × α)) (hm : ∀ p ∈ m, P p) :
    ∀ p ∈ rs.foldl (upsert kf fi fm) m, P p := by
  induction rs generalizing m with
  | nil => exact hm
  | cons c rs ih => exact ih _ (upsert_prop kf fi fm P hinit hmerge m c hm)

theorem sum_upsert (w : α → Nat) (u : β → Nat)
    (hinit : ∀ c, w (fi c) = u c) (hmerge : ∀ v c, w (fm v c) = w v + u c)
    (m : List (String × α)) (c : β) :
    ((upsert kf fi fm m c).map (fun p => w p.2)).sum =
      ((m.map fun p => w p.2)).sum + u c := by
  induction m with
  | nil => simp [upsert, hinit]
  | cons p m ih =>
    obtain ⟨k0, v⟩ := p
    by_cases h : k0 = kf c <;> simp [upsert, h, hmerge, ih] <;> omega

theorem sum_foldl_upsert (w : α → Nat) (u : β → Nat)
    (hinit : ∀ c, w (fi c) = u c) (hmerge : ∀ v c, w (fm v c) = w v + u c)
    (rs : List β) (m : List (String × α)) :
    ((rs.foldl (upsert kf fi fm) m).map (fun p => w p.2)).sum =
      ((m.map fun p => w p.2)).sum + (rs.map u).sum := by
  induction rs generalizing m with
  | nil => simp
  | cons c rs ih =>
    rw [List.foldl_cons, ih, sum_upsert kf fi fm w u hinit hmerge]
    simp
    omega

end UpsertLemmas

/-! ### Properties of the concrete merge steps -/

theorem addContribution_email (v c : ContributorData) :
    (addContribution v c).email = v.email := rfl

theorem addContribution_name (v c : ContributorData) :
    (addContribution v c).name = v.name := rfl

theorem addContribution_commits (v c : ContributorData) :
    (addContribution v c).commits = v.commits + c.commits := rfl

theorem addContribution_firstCommit (v c : ContributorData) :
    (addContribution v c).firstCommit =
      if jsLtB c.firstCommit v.firstCommit then c.firstCommit else v.firstCommit := rfl

theorem foldl_addContribution_email (v : ContributorData) (cs : List ContributorData) :
    (cs.foldl addContribution v).email = v.email := by
  induction cs generalizing v with
  | nil => rfl
  | cons c cs ih => rw [List.foldl_cons, ih, addContribution_email]

theorem foldl_addContribution_name (v : ContributorData) (cs : List ContributorData) :
    (cs.foldl addContribution v).name = v.name := by
  induction cs generalizing v with
  | nil => rfl
  | cons c cs ih => rw [List.foldl_cons, ih, addContribution_name]

theorem foldl_addContribution_commits (v : ContributorData) (cs : List ContributorData) :
    (cs.foldl addContribution v).commits = v.commits + (cs.map (fun c => c.commits)).sum := by
  induction cs generalizing v with
  | nil => simp
  | cons c cs ih =>
    rw [List.foldl_cons, ih, addContribution_commits, List.map_cons, List.sum_cons]
    omega

theorem foldl_addContribution_firstCommit (v : ContributorData) (cs : List ContributorData) :
    (cs.foldl addContribution v).firstCommit =
      minDate v.firstCommit (cs.map (fun c => c.firstCommit)) := by
  induction cs generalizing v with
  | nil => rfl
  | cons c cs ih =>
    rw [List.foldl_cons, ih, List.map_cons, minDate_cons, addContribution_firstCommit]

theorem mergeIdentity_commits (a : AuthorOutput) (c : ContributorData) :
    (mergeIdentity a c).commits = a.commits + c.commits := by
  cases h1 : jsLtB c.firstCommit a.firstCommit <;>
    simp only [mergeIdentity, h1, Bool.false_eq_true, if_false, if_true] <;>
    split <;> rfl

theorem mergeIdentity_firstCommit (a : AuthorOutput) (c : ContributorData) :
    (mergeIdentity a c).firstCommit =
      if jsLtB c.firstCommit a.firstCommit then c.firstCommit else a.firstCommit := by
  cases h1 : jsLtB c.firstCommit a.firstCommit <;>
    simp only [mergeIdentity, h1, Bool.false_eq_true, if_false, if_true] <;>
    split <;> rfl

theorem mergeIdentity_name (a : AuthorOutput) (c : ContributorData) :
    (mergeIdentity a c).name =
      if jsLtB c.firstCommit a.firstCommit then c.name else a.name := by
  cases h1 : jsLtB c.firstCommit a.firstCommit <;>
    simp only [mergeIdentity, h1, Bool.false_eq_true, if_false, if_true] <;>
    split <;> rfl

theorem mergeIdentity_github_of_some (a : AuthorOutput) (c : ContributorData) (g : String)
    (h : a.github = some g) : (mergeIdentity a c).github = some g := by
  cases h1 : jsLtB c.firstCommit a.firstCommit <;>
    simp [mergeIdentity, h1, h]

theorem mergeIdentity_github_isSome_left (a : AuthorOutput) (c : ContributorData)
    (h : a.github.isSome = true) : ((mergeIdentity a c).github).isSome = true := by
  rcases Option.isSome_iff_exists.mp h with ⟨g, hg⟩
  rw [mergeIdentity_github_of_some a c g hg]
  rfl

theorem mergeIdentity_github_isSome_right (a : AuthorOutput) (c : ContributorData)
    (h : (extractGithubFromNoreply c.email).isSome = true) :
    ((mergeIdentity a c).github).isSome = true := by
  cases h2 : a.github with
  | some g => rw [mergeIdentity_github_of_some a c g h2]; rfl
  | none =>
    cases h1 : jsLtB c.firstCommit a.firstCommit <;>
      simp [mergeIdentity, h1, h2, h]

theorem foldl_mergeIdentity_commits (a : AuthorOutput) (cs : List ContributorData) :
    (cs.foldl mergeIdentity a).commits = a.commits + (cs.map (fun c => c.commits)).sum := by
  induction cs generalizing a with
  | nil => simp
  | cons c cs ih =>
    rw [List.foldl_cons, ih, mergeIdentity_commits, List.map_cons, List.sum_cons]
    omega

theorem foldl_mergeIdentity_firstCommit (a : AuthorOutput) (cs : List ContributorData) :
    (cs.foldl mergeIdentity a).firstCommit =
      minDate a.firstCommit (cs.map (fun c => c.firstCommit)) := by
  induction cs generalizing a with
  | nil => rfl
  | cons c cs ih =>
    rw [List.foldl_cons, ih, List.map_cons, minDate_cons, mergeIdentity_firstCommit]

theorem foldl_mergeIdentity_name (a : AuthorOutput) (cs : List ContributorData) :
    ((cs.foldl mergeIdentity a).name = a.name ∧
      (cs.foldl mergeIdentity a).firstCommit = a.firstCommit) ∨
    ∃ c ∈ cs, (cs.foldl mergeIdentity a).name = c.name ∧
      (cs.foldl mergeIdentity a).firstCommit = c.firstCommit := by
  induction cs generalizing a with
  | nil => exact Or.inl ⟨rfl, rfl⟩
  | cons c cs ih =>
    rw [List.foldl_cons]
    rcases ih (mergeIdentity a c) with ⟨hn, hf⟩ | ⟨c', hc', hn, hf⟩
    · rw [hn, hf, mergeIdentity_name, mergeIdentity_firstCommit]
      cases h1 : jsLtB c.firstCommit a.firstCommit
      · exact Or.inl ⟨by simp [h1], by simp [h1]⟩
      · exact Or.inr ⟨c, List.mem_cons_self _ _, by simp [h1], by simp [h1]⟩
    · exact Or.inr ⟨c', List.mem_cons_of_mem _ hc', hn, hf⟩

theorem foldl_mergeIdentity_github_of_some (a : AuthorOutput) (cs : List ContributorData)
    (g : String) (h : a.github = some g) :
    (cs.foldl mergeIdentity a).github = some g := by
  induction cs generalizing a with
  | nil => exact h
  | cons c cs ih => exact ih _ (mergeIdentity_github_of_some a c g h)

theorem foldl_mergeIdentity_github_isSome (a : AuthorOutput) (cs : List ContributorData)
    (h : a.github.isSome = true) :
    ((cs.foldl mergeIdentity a).github).isSome = true := by
  induction cs generalizing a with
  | nil => exact h
  | cons c cs ih => exact ih _ (mergeIdentity_github_isSome_left a c h)

theorem foldl_mergeIdentity_github_isSome_mem (a : AuthorOutput) (cs : List ContributorData)
    (c : ContributorData) (hc : c ∈ cs)
    (h : (extractGithubFromNoreply c.email).isSome = true) :
    ((cs.foldl mergeIdentity a).github).isSome = true := by
  induction cs generalizing a with
  | nil => simp at hc
  | cons d cs ih =>
    rw [List.foldl_cons]
    rcases List.mem_cons.mp hc with rfl | hc
    · exact foldl_mergeIdentity_github_isSome _ _ (mergeIdentity_github_isSome_right a c h)
    · exact ih _ hc

/-! ### Characterization of the per-address merge (`byEmail`) -/

theorem alookup_foldl_mergeByEmail (rs : List ContributorData)
    (m : List (String × ContributorData)) (e : String) :
    alookup e (rs.foldl mergeByEmail m) =
      (alookup e m).elim
        (foldOption addContribution (fun c => c) (rs.filter fun c => c.email == e))
        (fun v => some ((rs.filter fun c => c.email == e).foldl addContribution v)) :=
  alookup_foldl_upsert _ _ _ rs m e

theorem mem_akeys_foldl_mergeByEmail (rs : List ContributorData)
    (m : List (String × ContributorData)) (e : String) :
    e ∈ akeys (rs.foldl mergeByEmail m) ↔ e ∈ akeys m ∨ ∃ c ∈ rs, c.email = e :=
  mem_akeys_foldl_upsert _ _ _ rs m e

theorem mem_akeys_foldl_setByEmail (rs : List ContributorData)
    (m : List (String × ContributorData)) (e : String) :
    e ∈ akeys (rs.foldl setByEmail m) ↔ e ∈ akeys m ∨ ∃ c ∈ rs, c.email = e :=
  mem_akeys_foldl_upsert _ _ _ rs m e

theorem foldl_setByEmail_eq (h : List ContributorData) :
    ∀ m : List (String × ContributorData),
      (h.map (fun c => c.email)).Nodup → (∀ c ∈ h, c.email ∉ akeys m) →
      h.foldl setByEmail m = m ++ h.map (fun c => (c.email, c)) := by
  induction h with
  | nil => intro m _ _; simp
  | cons c h ih =>
    intro m hnd hdisj
    simp only [List.map_cons, List.nodup_cons] at hnd
    rw [List.foldl_cons]
    have hset : setByEmail m c = m ++ [(c.email, c)] :=
      upsert_not_mem _ _ _ m c (hdisj c (List.mem_cons_self _ _))
    have hdisj' : ∀ c' ∈ h, c'.email ∉ akeys (m ++ [(c.email, c)]) := by
      intro c' hc'
      have hk : akeys (m ++ [(c.email, c)]) = akeys m ++ [c.email] := by simp [akeys]
      rw [hk]
      simp only [List.mem_append, List.mem_singleton]
      rintro (hmem | heq)
      · exact hdisj c' (List.mem_cons_of_mem _ hc') hmem
      · exact hnd.1 (heq ▸ List.mem_map_of_mem (fun c => c.email) hc')
    rw [hset, ih _ hnd.2 hdisj', List.append_assoc]
    simp

theorem byEmail_eq (h k : List ContributorData)
    (hnd : (h.map (fun c => c.email)).Nodup) :
    byEmail h k = k.foldl mergeByEmail (h.map (fun c => (c.email, c))) := by
  unfold byEmail
  rw [foldl_setByEmail_eq h [] hnd (by simp [akeys])]
  simp

theorem alookup_map_pair (h : List ContributorData) (e : String) :
    alookup e (h.map fun c => (c.email, c)) = (h.filter (fun c => c.email == e)).head? := by
  induction h with
  | nil => rfl
  | cons c h ih =>
    by_cases hc : c.email = e
    · simp [alookup, hc, List.filter_cons]
    · simp [alookup, hc, List.filter_cons, ih]

theorem filter_email_single (h : List ContributorData)
    (hnd : (h.map (fun c => c.email)).Nodup) (e : String) :
    h.filter (fun c => c.email == e) = [] ∨
      ∃ c, h.filter (fun c => c.email == e) = [c] := by
  induction h with
  | nil => exact Or.inl rfl
  | cons c h ih =>
    simp only [List.map_cons, List.nodup_cons] at hnd
    rcases ih hnd.2 with h0 | ⟨c', hc'⟩
    · by_cases hc : c.email = e
      · exact Or.inr ⟨c, by simp [List.filter_cons, hc, h0]⟩
      · exact Or.inl (by simp [List.filter_cons, hc, h0])
    · by_cases hc : c.email = e
      · exfalso
        have hmem : c' ∈ h.filter (fun c => c.email == e) := by rw [hc']; simp
        rw [List.mem_filter] at hmem
        have he' : c'.email = e := by simpa using hmem.2
        apply hnd.1
        have h2 : c'.email ∈ h.map (fun c => c.email) :=
          List.mem_map_of_mem _ hmem.1
        rwa [he', ← hc] at h2
      · exact Or.inr ⟨c', by simp [List.filter_cons, hc, hc']⟩

theorem alookup_byEmail (h k : List ContributorData)
    (hnd : (h.map (fun c => c.email)).Nodup) (e : String) :
    alookup e (byEmail h k) =
      foldOption addContribution (fun c => c)
        ((h ++ k).filter (fun c => c.email == e)) := by
  rw [byEmail_eq h k hnd, alookup_foldl_mergeByEmail, alookup_map_pair,
    List.filter_append]
  rcases filter_email_single h hnd e with h0 | ⟨c, hc⟩
  · rw [h0]
    cases hf : k.filter (fun c => c.email == e) <;> simp [hf, foldOption]
  · rw [hc]
    simp [foldOption]

theorem byEmail_email_eq_key (h k : List ContributorData) :
    ∀ p ∈ byEmail h k, (p.2 : ContributorData).email = p.1 := by
  intro p hp
  have base : ∀ q ∈ ([] : List (String × ContributorData)), q.2.email = q.1 := by simp
  have h1 := foldl_upsert_prop (fun c : ContributorData => c.email) (fun c => c)
    (fun _ c => c) (fun q => q.2.email = q.1) (fun _ => rfl) (fun _ _ _ => rfl) h [] base
  exact foldl_upsert_prop (fun c : ContributorData => c.email) (fun c => c)
    addContribution (fun q => q.2.email = q.1) (fun _ => rfl)
    (fun c v hv => (addContribution_email v c).trans hv) k _ h1 p hp

theorem byEmail_akeys_nodup (h k : List ContributorData) :
    (akeys (byEmail h k)).Nodup :=
  akeys_foldl_upsert_nodup _ _ _ k _
    (akeys_foldl_upsert_nodup _ _ _ h [] (by simp [akeys]))

theorem mem_akeys_byEmail (h k : List ContributorData) (e : String) :
    e ∈ akeys (byEmail h k) ↔ (∃ c ∈ h, c.email = e) ∨ ∃ c ∈ k, c.email = e := by
  unfold byEmail
  rw [mem_akeys_foldl_mergeByEmail, mem_akeys_foldl_setByEmail]
  simp [akeys]

theorem mem_mergeContacts_iff (h k : List ContributorData) (v : ContributorData) :
    v ∈ mergeContacts h k ↔ alookup v.email (byEmail h k) = some v := by
  constructor
  · intro hv
    rcases List.mem_map.mp hv with ⟨p, hp, rfl⟩
    have he := byEmail_email_eq_key h k p hp
    have hpe : ((p.2.email, p.2) : String × ContributorData) = p := by
      rw [he]
    exact alookup_of_mem (byEmail_akeys_nodup h k) (by rw [hpe]; exact hp)
  · intro hv
    exact List.mem_map.mpr ⟨(v.email, v), mem_of_alookup hv, rfl⟩

theorem mergeContacts_email_surj (h k : List ContributorData) (c : ContributorData)
    (hc : c ∈ h ++ k) : ∃ r ∈ mergeContacts h k, r.email = c.email := by
  have hkey : c.email ∈ akeys (byEmail h k) := by
    rw [mem_akeys_byEmail]
    rcases List.mem_append.mp hc with hc | hc
    · exact Or.inl ⟨c, hc, rfl⟩
    · exact Or.inr ⟨c, hc, rfl⟩
  rcases Option.ne_none_iff_exists.mp ((alookup_eq_none c.email (byEmail h k)).not.mpr
    (by simpa using hkey)) with ⟨v, hv⟩
  refine ⟨v, List.mem_map.mpr ⟨(c.email, v), mem_of_alookup hv.symm, rfl⟩, ?_⟩
  exact byEmail_email_eq_key h k (c.email, v) (mem_of_alookup hv.symm)

/-! ### Characterization of the identity dedup (`byIdentity`) -/

theorem alookup_foldl_dedupStep (rs : List ContributorData)
    (m : List (String × AuthorOutput)) (key : String) :
    alookup key (rs.foldl dedupStep m) =
      (alookup key m).elim
        (foldOption mergeIdentity initIdentity
          (rs.filter fun c => identityKey c.email == key))
        (fun a => some ((rs.filter fun c => identityKey c.email == key).foldl
          mergeIdentity a)) :=
  alookup_foldl_upsert _ _ _ rs m key

theorem alookup_byIdentity (rs : List ContributorData) (key : String) :
    alookup key (byIdentity rs) =
      foldOption mergeIdentity initIdentity
        (rs.filter (fun c => identityKey c.email == key)) := by
  unfold byIdentity
  rw [alookup_foldl_dedupStep rs [] key]
  rfl

theorem mem_akeys_foldl_dedupStep (rs : List ContributorData)
    (m : List (String × AuthorOutput)) (key : String) :
    key ∈ akeys (rs.foldl dedupStep m) ↔
      key ∈ akeys m ∨ ∃ c ∈ rs, identityKey c.email = key :=
  mem_akeys_foldl_upsert _ _ _ rs m key

theorem mem_akeys_byIdentity (rs : List ContributorData) (key : String) :
    key ∈ akeys (byIdentity rs) ↔ ∃ c ∈ rs, identityKey c.email = key := by
  unfold byIdentity
  rw [mem_akeys_foldl_dedupStep]
  simp [akeys]

theorem byIdentity_akeys_nodup (rs : List ContributorData) :
    (akeys (byIdentity rs)).Nodup :=
  akeys_foldl_upsert_nodup _ _ _ rs [] (by simp [akeys])

/-! ### Claim theorems -/

instance : IsTotal AuthorOutput authorLe :=
  ⟨fun a b => jsLeB_total a.firstCommit b.firstCommit⟩

instance : IsTrans AuthorOutput authorLe :=
  ⟨fun _ _ _ h1 h2 => jsLeB_trans h1 h2⟩

/-- C6: for every input, the author list returned by `getAuthors` is sorted
ascending by `firstCommit` under the comparator's order (code-point
lexicographic, which on day-precision ISO dates is chronological): every
pair of entries in order, in particular every adjacent pair `(x, y)`,
satisfies `x.firstCommit <= y.firstCommit`; ties keep the stable sort's
insertion order, and the output is a function of the inputs, hence
deterministic for a given input order. -/
theorem getAuthors_sorted_by_firstCommit (h k : List ContributorData) :
    (getAuthors h k).Pairwise authorLe :=
  List.sorted_insertionSort authorLe _

/-- C7: when the version-control query fails (the source path does not
exist, or the log command faults), `getKeiyoushiCommits` returns the empty
list — no error is propagated, the function is total — and `getAuthors`
degrades to the historical records only. -/
theorem getKeiyoushiCommits_failure_empty (h : List ContributorData) (srcExists : Bool)
    (logOutput : Option String) (hfail : srcExists = false ∨ logOutput = none) :
    getKeiyoushiCommits srcExists logOutput = [] ∧
      getAuthorsFull h srcExists logOutput = getAuthors h [] := by
  have he : getKeiyoushiCommits srcExists logOutput = [] := by
    rcases hfail with rfl | rfl
    · rfl
    · cases srcExists <;> rfl
  refine ⟨he, ?_⟩
  unfold getAuthorsFull
  rw [he]

theorem getKeiyoushiCommits_failure_empty_witness :
    getKeiyoushiCommits false (some "a@x|A|2024-01-01T00:00Z") = [] ∧
      getAuthorsFull [⟨"a@x.com", "Alice", 3, "2023-01-01"⟩] false
          (some "a@x|A|2024-01-01T00:00Z") =
        getAuthors [⟨"a@x.com", "Alice", 3, "2023-01-01"⟩] [] :=
  getKeiyoushiCommits_failure_empty _ _ _ (Or.inl rfl)

/-- C9: during identity dedup, once an identity's `github` field is set,
no later merge step — in particular one contributing no derivable handle —
ever clears or replaces it: after any further sequence of `dedupStep`
merges the identity still carries the same handle. -/
theorem dedup_publicHandle_persistent (rs : List ContributorData)
    (m : List (String × AuthorOutput)) (key : String) (a : AuthorOutput) (g : String)
    (hm : alookup key m = some a) (hg : a.github = some g) :
    ∃ a', alookup key (rs.foldl dedupStep m) = some a' ∧ a'.github = some g := by
  rw [alookup_foldl_dedupStep, hm]
  simp only [Option.elim]
  exact ⟨_, rfl, foldl_mergeIdentity_github_of_some a _ g hg⟩

theorem dedup_publicHandle_persistent_witness :
    ∃ a', alookup "alice" ([⟨"Alice", "X", 1, "2020-01-01"⟩].foldl dedupStep
        [("alice", ⟨some "alice", "AliceK", 2, "2024-02-01"⟩)]) = some a' ∧
      a'.github = some "alice" :=
  dedup_publicHandle_persistent [⟨"Alice", "X", 1, "2020-01-01"⟩]
    [("alice", ⟨some "alice", "AliceK", 2, "2024-02-01"⟩)] "alice"
    ⟨some "alice", "AliceK", 2, "2024-02-01"⟩ "alice" (by decide) (by decide)

/-- C10: the noreply pattern's digit-and-plus group is optional: an address
`local@users.noreply.github.com` whose local part is nonempty, contains no
`@`, and does not start with a nonempty digit run followed by `+`, yields
the entire local part as the derived handle (not `none`), and its identity
merge key is therefore the case-folded handle. -/
theorem extractGithubFromNoreply_no_digit_plus (L : List Char)
    (h1 : L ≠ []) (h2 : '@' ∉ L)
    (h3 : ∀ ds rest : List Char, ds ≠ [] → (∀ c ∈ ds, c.isDigit = true) →
      L ≠ ds ++ '+' :: rest) :
    extractGithubFromNoreply (String.mk (L ++ noreplyDomain)) = some (String.mk L) ∧
      identityKey (String.mk (L ++ noreplyDomain)) = lowerString (String.mk L) := by
  have hn : (L ++ noreplyDomain).length - noreplyDomain.length = L.length := by
    simp [List.length_append]
  have hlh : localHandle L = L := by
    unfold localHandle
    split
    · rename_i a as c cs heq1 heq2
      exfalso
      refine h3 (L.takeWhile Char.isDigit) (c :: cs) ?_ ?_ ?_
      · rw [heq1]; simp
      · intro x hx; exact List.mem_takeWhile_imp hx
      · conv_lhs => rw [← List.takeWhile_append_dropWhile Char.isDigit L]
        rw [heq2]
    · rfl
  have hcond : noreplyDomain.length < (L ++ noreplyDomain).length ∧
      (L ++ noreplyDomain).drop ((L ++ noreplyDomain).length - noreplyDomain.length) =
        noreplyDomain ∧
      (((L ++ noreplyDomain).take
        ((L ++ noreplyDomain).length - noreplyDomain.length)).all
          (fun c => c != '@')) = true := by
    refine ⟨?_, ?_, ?_⟩
    · have : 0 < L.length := List.length_pos.mpr h1
      simp only [List.length_append]
      omega
    · rw [hn, List.drop_left]
    · rw [hn, List.take_left, List.all_eq_true]
      intro c hc
      simp only [bne_iff_ne, ne_eq]
      intro he
      exact h2 (he ▸ hc)
  have hex : extractGithubFromNoreply (String.mk (L ++ noreplyDomain)) =
      some (String.mk L) := by
    show (if noreplyDomain.length < (L ++ noreplyDomain).length ∧
        (L ++ noreplyDomain).drop ((L ++ noreplyDomain).length - noreplyDomain.length) =
          noreplyDomain ∧
        (((L ++ noreplyDomain).take
          ((L ++ noreplyDomain).length - noreplyDomain.length)).all
            (fun c => c != '@')) = true
      then some (String.mk (localHandle ((L ++ noreplyDomain).take
        ((L ++ noreplyDomain).length - noreplyDomain.length))))
      else none) = some (String.mk L)
    rw [if_pos hcond, hn, List.take_left, hlh]
  refine ⟨hex, ?_⟩
  unfold identityKey
  rw [hex]

theorem extractGithubFromNoreply_no_digit_plus_witness :
    extractGithubFromNoreply (String.mk ("alice".toList ++ noreplyDomain)) =
        some (String.mk "alice".toList) ∧
      identityKey (String.mk ("alice".toList ++ noreplyDomain)) =
        lowerString (String.mk "alice".toList) :=
  extractGithubFromNoreply_no_digit_plus "alice".toList (by decide) (by decide)
    (fun ds rest hne hdig heq => by
      have hp : '+' ∈ "alice".toList := by
        rw [heq]
        exact List.mem_append.mpr (Or.inr (List.mem_cons_self _ _))
      simp at hp)

/-- C2: for addresses unique within each source, the sum of `commits` over
the list returned by `getAuthors` equals the sum of `commits` over all
input records from both sources — no commits are lost or double-counted,
for any partition of the inputs between the historical and live sources. -/
theorem getAuthors_total_commits (h k : List ContributorData)
    (hh : (h.map (fun c => c.email)).Nodup) (hk : (k.map (fun c => c.email)).Nodup) :
    ((getAuthors h k).map (fun a => a.commits)).sum =
      (h.map (fun c => c.commits)).sum + (k.map (fun c => c.commits)).sum := by
  have e1 : ((getAuthors h k).map (fun a => a.commits)).sum =
      ((byIdentity (mergeContacts h k)).map (fun p => p.2.commits)).sum := by
    have hp := ((List.perm_insertionSort authorLe
      ((byIdentity (mergeContacts h k)).map Prod.snd)).map (fun a => a.commits)).sum_eq
    rw [List.map_map] at hp
    exact hp
  have e2 : ((byIdentity (mergeContacts h k)).map (fun p => p.2.commits)).sum =
      ((mergeContacts h k).map (fun c => c.commits)).sum := by
    have h2 := sum_foldl_upsert (fun c : ContributorData => identityKey c.email)
      initIdentity mergeIdentity (fun a => a.commits) (fun c => c.commits)
      (fun _ => rfl) mergeIdentity_commits (mergeContacts h k) []
    simpa using h2
  have e3 : ((mergeContacts h k).map (fun c => c.commits)).sum =
      ((byEmail h k).map (fun p => p.2.commits)).sum := by
    unfold mergeContacts
    rw [List.map_map]
    rfl
  have e4 : ((byEmail h k).map (fun p => p.2.commits)).sum =
      (h.map (fun c => c.commits)).sum + (k.map (fun c => c.commits)).sum := by
    rw [byEmail_eq h k hh]
    have h3 : ((k.foldl mergeByEmail (h.map (fun c => (c.email, c)))).map
        (fun p => p.2.commits)).sum =
        ((h.map (fun c => (c.email, c))).map (fun p => p.2.commits)).sum +
          (k.map (fun c => c.commits)).sum :=
      sum_foldl_upsert (fun c : ContributorData => c.email) (fun c => c)
        addContribution (fun v => v.commits) (fun c => c.commits)
        (fun _ => rfl) addContribution_commits k
        (h.map (fun c : ContributorData => (c.email, c)))
    rw [h3, List.map_map]
    rfl
  omega

theorem getAuthors_total_commits_witness :
    (((getAuthors [⟨"a@x.com", "Alice", 3, "2023-01-01"⟩]
        [⟨"12345+alice@users.noreply.github.com", "AliceK", 2, "2024-02-01"⟩,
         ⟨"a@x.com", "Alice", 4, "2024-03-01"⟩]).map (fun a => a.commits)).sum = 3 + 6) :=
  (getAuthors_total_commits _ _ (by decide) (by decide)).trans (by decide)

/-- With coherent keys (each value's email equals its key) and distinct
keys, filtering the map's values by an email selects exactly the entry at
that key. -/
theorem filter_snd_eq_alookup (m : List (String × ContributorData)) (e : String)
    (hnd : (akeys m).Nodup) (hkv : ∀ p ∈ m, (p.2 : ContributorData).email = p.1) :
    (m.map Prod.snd).filter (fun c => c.email == e) = (alookup e m).toList := by
  induction m with
  | nil => rfl
  | cons p m ih =>
    obtain ⟨k0, v⟩ := p
    simp only [akeys, List.map_cons, List.nodup_cons] at hnd
    have hv : v.email = k0 := hkv (k0, v) (List.mem_cons_self _ _)
    have hkv' : ∀ q ∈ m, (q.2 : ContributorData).email = q.1 :=
      fun q hq => hkv q (List.mem_cons_of_mem _ hq)
    by_cases he : k0 = e
    · subst he
      have hrest : (m.map Prod.snd).filter (fun c => c.email == k0) = [] := by
        rw [List.filter_eq_nil_iff]
        intro c hc
        rcases List.mem_map.mp hc with ⟨q, hq, rfl⟩
        have hqe := hkv' q hq
        simp only [beq_iff_eq]
        intro hbe
        exact hnd.1 (hbe ▸ hqe ▸ List.mem_map_of_mem Prod.fst hq)
      simp [List.filter_cons, hv, alookup, hrest]
    · have hne : (v.email == e) = false := by
        rw [beq_eq_false_iff_ne, hv]
        exact he
      simp [List.filter_cons, hne, alookup, he, ih hnd.2 hkv']

theorem countOf_append (l1 l2 : List ContributorData) (e : String) :
    countOf (l1 ++ l2) e = countOf l1 e + countOf l2 e := by
  unfold countOf
  rw [List.filter_append, List.map_append, List.sum_append]

theorem countOf_mergeContacts (h k : List ContributorData)
    (hnd : (h.map (fun c => c.email)).Nodup) (e : String) :
    countOf (mergeContacts h k) e = countOf h e + countOf k e := by
  have h1 : (mergeContacts h k).filter (fun c => c.email == e) =
      (alookup e (byEmail h k)).toList :=
    filter_snd_eq_alookup (byEmail h k) e (byEmail_akeys_nodup h k)
      (byEmail_email_eq_key h k)
  rw [← countOf_append h k e]
  unfold countOf
  rw [h1, alookup_byEmail h k hnd e]
  cases hf : (h ++ k).filter (fun c => c.email == e) with
  | nil => simp [foldOption]
  | cons c cs =>
    simp only [foldOption, Option.toList, List.map_cons, List.sum_cons,
      List.map_nil, List.sum_nil]
    rw [foldl_addContribution_commits]
    simp

theorem mergeContacts_emails_nodup (h k : List ContributorData) :
    ((mergeContacts h k).map (fun c => c.email)).Nodup := by
  have he : (mergeContacts h k).map (fun c => c.email) = akeys (byEmail h k) := by
    unfold mergeContacts
    rw [List.map_map]
    exact List.map_congr_left (fun p hp => byEmail_email_eq_key h k p hp)
  rw [he]
  exact byEmail_akeys_nodup h k

/-- C4: for record sets with addresses unique within each set, the
per-address merge is associative and commutative in the aggregate commit
count per contact address: both association orders yield, for every
address, the sum of that address's counts across all three sources, and
swapping the two sources of a merge leaves every per-address count
unchanged. -/
theorem mergeContacts_assoc_comm (A B C : List ContributorData)
    (hA : (A.map (fun c => c.email)).Nodup) (hB : (B.map (fun c => c.email)).Nodup)
    (hC : (C.map (fun c => c.email)).Nodup) (e : String) :
    countOf (mergeContacts A (mergeContacts B C)) e =
        countOf (mergeContacts (mergeContacts A B) C) e ∧
      countOf (mergeContacts A (mergeContacts B C)) e =
        countOf A e + countOf B e + countOf C e ∧
      countOf (mergeContacts A B) e = countOf (mergeContacts B A) e := by
  have h1 := countOf_mergeContacts A (mergeContacts B C) hA e
  have h2 := countOf_mergeContacts B C hB e
  have h3 := countOf_mergeContacts (mergeContacts A B) C
    (mergeContacts_emails_nodup A B) e
  have h4 := countOf_mergeContacts A B hA e
  have h5 := countOf_mergeContacts B A hB e
  refine ⟨?_, ?_, ?_⟩ <;> omega

theorem mergeContacts_assoc_comm_witness :
    countOf (mergeContacts [⟨"a@x", "A", 1, "2020-01-01"⟩]
        (mergeContacts [⟨"a@x", "B", 2, "2021-01-01"⟩]
          [⟨"b@x", "C", 4, "2022-01-01"⟩])) "a@x" =
      countOf (mergeContacts (mergeContacts [⟨"a@x", "A", 1, "2020-01-01"⟩]
        [⟨"a@x", "B", 2, "2021-01-01"⟩]) [⟨"b@x", "C", 4, "2022-01-01"⟩]) "a@x" ∧
    countOf (mergeContacts [⟨"a@x", "A", 1, "2020-01-01"⟩]
        (mergeContacts [⟨"a@x", "B", 2, "2021-01-01"⟩]
          [⟨"b@x", "C", 4, "2022-01-01"⟩])) "a@x" =
      countOf [⟨"a@x", "A", 1, "2020-01-01"⟩] "a@x" +
        countOf [⟨"a@x", "B", 2, "2021-01-01"⟩] "a@x" +
        countOf [⟨"b@x", "C", 4, "2022-01-01"⟩] "a@x" ∧
    countOf (mergeContacts [⟨"a@x", "A", 1, "2020-01-01"⟩]
        [⟨"a@x", "B", 2, "2021-01-01"⟩]) "a@x" =
      countOf (mergeContacts [⟨"a@x", "B", 2, "2021-01-01"⟩]
        [⟨"a@x", "A", 1, "2020-01-01"⟩]) "a@x" :=
  mergeContacts_assoc_comm [⟨"a@x", "A", 1, "2020-01-01"⟩]
    [⟨"a@x", "B", 2, "2021-01-01"⟩] [⟨"b@x", "C", 4, "2022-01-01"⟩]
    (by decide) (by decide) (by decide) "a@x"

/-- Every merged per-address record attains its `firstCommit` on one of the
inputs with its address and is never later than any of them. -/
theorem mergeContacts_firstCommit_min (h k : List ContributorData)
    (hh : (h.map (fun c => c.email)).Nodup) (r : ContributorData)
    (hr : r ∈ mergeContacts h k) :
    (r.firstCommit ∈ ((h ++ k).filter (fun c => c.email == r.email)).map
        (fun c => c.firstCommit)) ∧
      ∀ c ∈ h ++ k, c.email = r.email → jsLeB r.firstCommit c.firstCommit = true := by
  have hal : alookup r.email (byEmail h k) = some r := (mem_mergeContacts_iff h k r).mp hr
  rw [alookup_byEmail h k hh] at hal
  cases hfe : (h ++ k).filter (fun c => c.email == r.email) with
  | nil => rw [hfe] at hal; simp [foldOption] at hal
  | cons d0 ds =>
    rw [hfe] at hal
    simp only [foldOption, Option.some.injEq] at hal
    have hrf : r.firstCommit = minDate d0.firstCommit (ds.map (fun c => c.firstCommit)) := by
      rw [← hal, foldl_addContribution_firstCommit]
    constructor
    · rcases minDate_mem d0.firstCommit (ds.map (fun c => c.firstCommit)) with hm | hm
      · rw [List.map_cons, hrf, hm]
        exact List.mem_cons_self _ _
      · rw [List.map_cons, hrf]
        exact List.mem_cons_of_mem _ hm
    · intro c hc hce
      have hcf : c ∈ (h ++ k).filter (fun c => c.email == r.email) :=
        List.mem_filter.mpr ⟨hc, by simp [hce]⟩
      rw [hfe] at hcf
      rcases List.mem_cons.mp hcf with rfl | hcm
      · rw [hrf]
        exact minDate_le_init _ _
      · rw [hrf]
        exact minDate_le_mem _ _ _ (List.mem_map_of_mem _ hcm)

/-- C3: with addresses unique within each source, the `firstCommit` of each
identity key after the per-address merge followed by the identity dedup
equals the minimum `firstCommit` over all input records mapped to that key
— it is attained by one of them and is never later than any individual
input's date, regardless of the processing order encoded in the lists. -/
theorem identities_firstCommit_min (h k : List ContributorData)
    (hh : (h.map (fun c => c.email)).Nodup) (hk : (k.map (fun c => c.email)).Nodup)
    (key : String) (a : AuthorOutput)
    (ha : alookup key (byIdentity (mergeContacts h k)) = some a) :
    (a.firstCommit ∈ ((h ++ k).filter (fun c => identityKey c.email == key)).map
        (fun c => c.firstCommit)) ∧
      ∀ c ∈ h ++ k, identityKey c.email = key →
        jsLeB a.firstCommit c.firstCommit = true := by
  rw [alookup_byIdentity] at ha
  cases hfil : (mergeContacts h k).filter (fun c => identityKey c.email == key) with
  | nil => rw [hfil] at ha; simp [foldOption] at ha
  | cons c0 cs =>
    rw [hfil] at ha
    simp only [foldOption, Option.some.injEq] at ha
    have hsub : ∀ x ∈ c0 :: cs, x ∈ mergeContacts h k ∧ identityKey x.email = key := by
      intro x hx
      have hxf : x ∈ (mergeContacts h k).filter (fun c => identityKey c.email == key) := by
        rw [hfil]; exact hx
      rw [List.mem_filter] at hxf
      exact ⟨hxf.1, by simpa using hxf.2⟩
    have hfc : a.firstCommit = minDate c0.firstCommit (cs.map (fun c => c.firstCommit)) := by
      rw [← ha, foldl_mergeIdentity_firstCommit]
      rfl
    have hmem_merged : ∃ r ∈ mergeContacts h k, identityKey r.email = key ∧
        r.firstCommit = a.firstCommit := by
      rcases minDate_mem c0.firstCommit (cs.map (fun c => c.firstCommit)) with hm | hm
      · obtain ⟨h1, h2⟩ := hsub c0 (List.mem_cons_self _ _)
        exact ⟨c0, h1, h2, by rw [hfc, hm]⟩
      · rcases List.mem_map.mp hm with ⟨c, hc, hcd⟩
        obtain ⟨h1, h2⟩ := hsub c (List.mem_cons_of_mem _ hc)
        exact ⟨c, h1, h2, by rw [hfc, ← hcd]⟩
    have hle_merged : ∀ r ∈ mergeContacts h k, identityKey r.email = key →
        jsLeB a.firstCommit r.firstCommit = true := by
      intro r hr hrk
      have hrf : r ∈ c0 :: cs := by
        have : r ∈ (mergeContacts h k).filter (fun c => identityKey c.email == key) :=
          List.mem_filter.mpr ⟨hr, by simp [hrk]⟩
        rwa [hfil] at this
      rcases List.mem_cons.mp hrf with rfl | hrf
      · rw [hfc]
        exact minDate_le_init _ _
      · rw [hfc]
        exact minDate_le_mem _ _ _ (List.mem_map_of_mem _ hrf)
    constructor
    · obtain ⟨r, hr, hrk, hrd⟩ := hmem_merged
      obtain ⟨hrmem, _⟩ := mergeContacts_firstCommit_min h k hh r hr
      rcases List.mem_map.mp hrmem with ⟨c, hcf, hcd⟩
      rw [List.mem_filter] at hcf
      have hce : c.email = r.email := by simpa using hcf.2
      have hck : identityKey c.email = key := by rw [hce, hrk]
      exact List.mem_map.mpr ⟨c, List.mem_filter.mpr ⟨hcf.1, by simp [hck]⟩,
        by rw [hcd, hrd]⟩
    · intro c hc hck
      obtain ⟨r', hr', hre⟩ := mergeContacts_email_surj h k c hc
      have hr'k : identityKey r'.email = key := by rw [hre, hck]
      have h1 : jsLeB a.firstCommit r'.firstCommit = true := hle_merged r' hr' hr'k
      have h2 : jsLeB r'.firstCommit c.firstCommit = true :=
        (mergeContacts_firstCommit_min h k hh r' hr').2 c hc hre.symm
      exact jsLeB_trans h1 h2

theorem identities_firstCommit_min_witness :
    ((⟨some "alice", "AliceK", 2, "2024-02-01"⟩ : AuthorOutput).firstCommit ∈
        ((([⟨"a@x.com", "Alice", 3, "2023-01-01"⟩] ++
          [⟨"12345+alice@users.noreply.github.com", "AliceK", 2, "2024-02-01"⟩] :
            List ContributorData)).filter
            (fun c => identityKey c.email == "alice")).map (fun c => c.firstCommit)) ∧
      ∀ c ∈ ([⟨"a@x.com", "Alice", 3, "2023-01-01"⟩] ++
          [⟨"12345+alice@users.noreply.github.com", "AliceK", 2, "2024-02-01"⟩] :
            List ContributorData),
        identityKey c.email = "alice" →
        jsLeB (⟨some "alice", "AliceK", 2, "2024-02-01"⟩ : AuthorOutput).firstCommit
          c.firstCommit = true :=
  identities_firstCommit_min [⟨"a@x.com", "Alice", 3, "2023-01-01"⟩]
    [⟨"12345+alice@users.noreply.github.com", "AliceK", 2, "2024-02-01"⟩]
    (by decide) (by decide) "alice" ⟨some "alice", "AliceK", 2, "2024-02-01"⟩
    (by decide)

/-- C1 counterexample: with one historical record and one live record for
the same address, the live record supplies the earliest date (and the final
`firstCommit`), yet the final `name` stays the historical one, because the
per-address source merge (lines 117-127) never updates `name`.  The claim
that the final displayName equals the displayName of the input record with
the earliest `firstSeenDate` is therefore false at this input. -/
theorem getAuthors_name_not_from_earliest_input :
    getAuthors [⟨"a@x.com", "Old", 1, "2023-05-05"⟩]
        [⟨"a@x.com", "New", 2, "2023-01-01"⟩] =
      [⟨none, "Old", 3, "2023-01-01"⟩] ∧
      jsLtB "2023-01-01" "2023-05-05" = true ∧
      ("Old" : String) ≠ "New" := by decide

/-- C1 (amended): the final `name` of each identity equals the `name` of
one of the per-address records produced by the source merger (which keeps
the historical name when both sources share an address) that attains the
identity's minimal `firstCommit` among all per-address records merged into
that identity. -/
theorem identities_name_from_earliest_merged (h k : List ContributorData)
    (key : String) (a : AuthorOutput)
    (ha : alookup key (byIdentity (mergeContacts h k)) = some a) :
    ∃ r ∈ mergeContacts h k, identityKey r.email = key ∧ a.name = r.name ∧
      a.firstCommit = r.firstCommit ∧
      ∀ r' ∈ mergeContacts h k, identityKey r'.email = key →
        jsLeB a.firstCommit r'.firstCommit = true := by
  rw [alookup_byIdentity] at ha
  cases hfil : (mergeContacts h k).filter (fun c => identityKey c.email == key) with
  | nil => rw [hfil] at ha; simp [foldOption] at ha
  | cons c0 cs =>
    rw [hfil] at ha
    simp only [foldOption, Option.some.injEq] at ha
    have hsub : ∀ x ∈ c0 :: cs, x ∈ mergeContacts h k ∧ identityKey x.email = key := by
      intro x hx
      have hxf : x ∈ (mergeContacts h k).filter (fun c => identityKey c.email == key) := by
        rw [hfil]; exact hx
      rw [List.mem_filter] at hxf
      exact ⟨hxf.1, by simpa using hxf.2⟩
    have hfc : a.firstCommit = minDate c0.firstCommit (cs.map (fun c => c.firstCommit)) := by
      rw [← ha, foldl_mergeIdentity_firstCommit]
      rfl
    have hle_merged : ∀ r' ∈ mergeContacts h k, identityKey r'.email = key →
        jsLeB a.firstCommit r'.firstCommit = true := by
      intro r' hr' hrk
      have hrf : r' ∈ c0 :: cs := by
        have hm : r' ∈ (mergeContacts h k).filter (fun c => identityKey c.email == key) :=
          List.mem_filter.mpr ⟨hr', by simp [hrk]⟩
        rwa [hfil] at hm
      rcases List.mem_cons.mp hrf with rfl | hrf
      · rw [hfc]
        exact minDate_le_init _ _
      · rw [hfc]
        exact minDate_le_mem _ _ _ (List.mem_map_of_mem _ hrf)
    rcases foldl_mergeIdentity_name (initIdentity c0) cs with ⟨hn, hf⟩ | ⟨c, hc, hn, hf⟩
    · obtain ⟨h1, h2⟩ := hsub c0 (List.mem_cons_self _ _)
      refine ⟨c0, h1, h2, ?_, ?_, hle_merged⟩
      · rw [← ha, hn]; rfl
      · rw [← ha, hf]; rfl
    · obtain ⟨h1, h2⟩ := hsub c (List.mem_cons_of_mem _ hc)
      refine ⟨c, h1, h2, ?_, ?_, hle_merged⟩
      · rw [← ha]; exact hn
      · rw [← ha]; exact hf

theorem identities_name_from_earliest_merged_witness :
    ∃ r ∈ mergeContacts [⟨"a@x.com", "Old", 1, "2023-05-05"⟩]
        [⟨"a@x.com", "New", 2, "2023-01-01"⟩],
      identityKey r.email = "a@x.com" ∧
        (⟨none, "Old", 3, "2023-01-01"⟩ : AuthorOutput).name = r.name ∧
        (⟨none, "Old", 3, "2023-01-01"⟩ : AuthorOutput).firstCommit = r.firstCommit ∧
        ∀ r' ∈ mergeContacts [⟨"a@x.com", "Old", 1, "2023-05-05"⟩]
            [⟨"a@x.com", "New", 2, "2023-01-01"⟩],
          identityKey r'.email = "a@x.com" →
          jsLeB (⟨none, "Old", 3, "2023-01-01"⟩ : AuthorOutput).firstCommit
            r'.firstCommit = true :=
  identities_name_from_earliest_merged [⟨"a@x.com", "Old", 1, "2023-05-05"⟩]
    [⟨"a@x.com", "New", 2, "2023-01-01"⟩] "a@x.com"
    ⟨none, "Old", 3, "2023-01-01"⟩ (by decide)

/-- With addresses unique in the input, a record whose identity key
collides with no other's is the sole record filtered at its key. -/
theorem filter_key_single (rs : List ContributorData)
    (hnd : (rs.map (fun c => c.email)).Nodup) (c : ContributorData) (hc : c ∈ rs)
    (huniq : ∀ c' ∈ rs, identityKey c'.email = identityKey c.email → c' = c) :
    rs.filter (fun c' => identityKey c'.email == identityKey c.email) = [c] := by
  have hnodup : rs.Nodup := List.Nodup.of_map _ hnd
  have hfn : (rs.filter (fun c' => identityKey c'.email == identityKey c.email)).Nodup :=
    hnodup.filter _
  have hall : ∀ x ∈ rs.filter (fun c' => identityKey c'.email == identityKey c.email),
      x = c := by
    intro x hx
    rw [List.mem_filter] at hx
    exact huniq x hx.1 (by simpa using hx.2)
  have hcf : c ∈ rs.filter (fun c' => identityKey c'.email == identityKey c.email) :=
    List.mem_filter.mpr ⟨hc, by simp⟩
  cases hf : rs.filter (fun c' => identityKey c'.email == identityKey c.email) with
  | nil => rw [hf] at hcf; simp at hcf
  | cons x xs =>
    rw [hf] at hall hcf hfn
    have hx : x = c := hall x (List.mem_cons_self _ _)
    subst hx
    cases xs with
    | nil => rfl
    | cons y ys =>
      exfalso
      have hy : y = x := hall y (List.mem_cons_of_mem _ (List.mem_cons_self _ _))
      have hnx : x ∉ y :: ys := (List.nodup_cons.mp hfn).1
      exact hnx (hy ▸ List.mem_cons_self _ _)

/-- C5: the identity dedup produces exactly one record per distinct
case-folded merge key: the key list of `byIdentity` has no duplicates and
holds exactly the keys of the input records; two addresses with the same
derived handle (case-folded) share one key, and the record at that key has
its `github` handle set; an address with no derivable handle that collides
with no other address keeps its own record, with `github = none` and its
own name, count and date. -/
theorem byIdentity_one_per_key (rs : List ContributorData)
    (hrs : (rs.map (fun c => c.email)).Nodup) :
    (akeys (byIdentity rs)).Nodup ∧
      (∀ key, key ∈ akeys (byIdentity rs) ↔ ∃ c ∈ rs, identityKey c.email = key) ∧
      (∀ c1 ∈ rs, ∀ c2 ∈ rs, ∀ g1 g2 : String,
        extractGithubFromNoreply c1.email = some g1 →
        extractGithubFromNoreply c2.email = some g2 →
        lowerString g1 = lowerString g2 →
        identityKey c1.email = identityKey c2.email ∧
          ∀ a, alookup (identityKey c1.email) (byIdentity rs) = some a →
            a.github.isSome = true) ∧
      (∀ c ∈ rs, extractGithubFromNoreply c.email = none →
        (∀ c' ∈ rs, identityKey c'.email = identityKey c.email → c' = c) →
        alookup (identityKey c.email) (byIdentity rs) =
          some ⟨none, c.name, c.commits, c.firstCommit⟩) := by
  refine ⟨byIdentity_akeys_nodup rs, mem_akeys_byIdentity rs, ?_, ?_⟩
  · intro c1 hc1 c2 hc2 g1 g2 he1 he2 hg
    have hk1 : identityKey c1.email = lowerString g1 := by
      unfold identityKey; rw [he1]
    have hk2 : identityKey c2.email = lowerString g2 := by
      unfold identityKey; rw [he2]
    refine ⟨by rw [hk1, hk2, hg], ?_⟩
    intro a ha
    rw [alookup_byIdentity] at ha
    cases hfil : rs.filter (fun c => identityKey c.email == identityKey c1.email) with
    | nil => rw [hfil] at ha; simp [foldOption] at ha
    | cons c0 cs =>
      rw [hfil] at ha
      simp only [foldOption, Option.some.injEq] at ha
      have hc1f : c1 ∈ c0 :: cs := by
        have hm : c1 ∈ rs.filter (fun c => identityKey c.email == identityKey c1.email) :=
          List.mem_filter.mpr ⟨hc1, by simp⟩
        rwa [hfil] at hm
      rw [← ha]
      rcases List.mem_cons.mp hc1f with rfl | hmem
      · exact foldl_mergeIdentity_github_isSome _ _ (by simp [initIdentity, he1])
      · exact foldl_mergeIdentity_github_isSome_mem _ _ c1 hmem (by simp [he1])
  · intro c hc hex huniq
    rw [alookup_byIdentity, filter_key_single rs hrs c hc huniq]
    simp [foldOption, initIdentity, hex]

theorem byIdentity_one_per_key_witness :
    (akeys (byIdentity ([⟨"12345+Alice@users.noreply.github.com", "A1", 1, "2020-01-01"⟩,
        ⟨"alice@users.noreply.github.com", "A2", 2, "2021-01-01"⟩,
        ⟨"bob@x.com", "Bob", 3, "2019-01-01"⟩] : List ContributorData))).Nodup ∧
      (∀ key, key ∈ akeys (byIdentity ([⟨"12345+Alice@users.noreply.github.com", "A1", 1, "2020-01-01"⟩,
          ⟨"alice@users.noreply.github.com", "A2", 2, "2021-01-01"⟩,
          ⟨"bob@x.com", "Bob", 3, "2019-01-01"⟩] : List ContributorData)) ↔
        ∃ c ∈ ([⟨"12345+Alice@users.noreply.github.com", "A1", 1, "2020-01-01"⟩,
          ⟨"alice@users.noreply.github.com", "A2", 2, "2021-01-01"⟩,
          ⟨"bob@x.com", "Bob", 3, "2019-01-01"⟩] : List ContributorData),
          identityKey c.email = key) ∧
      (∀ c1 ∈ ([⟨"12345+Alice@users.noreply.github.com", "A1", 1, "2020-01-01"⟩,
          ⟨"alice@users.noreply.github.com", "A2", 2, "2021-01-01"⟩,
          ⟨"bob@x.com", "Bob", 3, "2019-01-01"⟩] : List ContributorData),
        ∀ c2 ∈ ([⟨"12345+Alice@users.noreply.github.com", "A1", 1, "2020-01-01"⟩,
          ⟨"alice@users.noreply.github.com", "A2", 2, "2021-01-01"⟩,
          ⟨"bob@x.com", "Bob", 3, "2019-01-01"⟩] : List ContributorData),
        ∀ g1 g2 : String,
        extractGithubFromNoreply c1.email = some g1 →
        extractGithubFromNoreply c2.email = some g2 →
        lowerString g1 = lowerString g2 →
        identityKey c1.email = identityKey c2.email ∧
          ∀ a, alookup (identityKey c1.email)
              (byIdentity ([⟨"12345+Alice@users.noreply.github.com", "A1", 1, "2020-01-01"⟩,
                ⟨"alice@users.noreply.github.com", "A2", 2, "2021-01-01"⟩,
                ⟨"bob@x.com", "Bob", 3, "2019-01-01"⟩] : List ContributorData)) = some a →
            a.github.isSome = true) ∧
      (∀ c ∈ ([⟨"12345+Alice@users.noreply.github.com", "A1", 1, "2020-01-01"⟩,
          ⟨"alice@users.noreply.github.com", "A2", 2, "2021-01-01"⟩,
          ⟨"bob@x.com", "Bob", 3, "2019-01-01"⟩] : List ContributorData),
        extractGithubFromNoreply c.email = none →
        (∀ c' ∈ ([⟨"12345+Alice@users.noreply.github.com", "A1", 1, "2020-01-01"⟩,
          ⟨"alice@users.noreply.github.com", "A2", 2, "2021-01-01"⟩,
          ⟨"bob@x.com", "Bob", 3, "2019-01-01"⟩] : List ContributorData),
          identityKey c'.email = identityKey c.email → c' = c) →
        alookup (identityKey c.email)
            (byIdentity ([⟨"12345+Alice@users.noreply.github.com", "A1", 1, "2020-01-01"⟩,
              ⟨"alice@users.noreply.github.com", "A2", 2, "2021-01-01"⟩,
              ⟨"bob@x.com", "Bob", 3, "2019-01-01"⟩] : List ContributorData)) =
          some ⟨none, c.name, c.commits, c.firstCommit⟩) :=
  byIdentity_one_per_key
    ([⟨"12345+Alice@users.noreply.github.com", "A1", 1, "2020-01-01"⟩,
      ⟨"alice@users.noreply.github.com", "A2", 2, "2021-01-01"⟩,
      ⟨"bob@x.com", "Bob", 3, "2019-01-01"⟩] : List ContributorData) (by decide)

theorem tallyStep_none (m : List (String × Tally)) (line : String)
    (h : parseLine line = none) : tallyStep m line = m := by
  unfold tallyStep
  rw [h]

theorem mem_akeys_upsert_iff {α β : Type} (kf : β → String) (fi : β → α)
    (fm : α → β → α) (m : List (String × α)) (c : β) (e : String) :
    e ∈ akeys (upsert kf fi fm m c) ↔ e ∈ akeys m ∨ e = kf c := by
  by_cases hmem : kf c ∈ akeys m
  · rw [akeys_upsert_mem kf fi fm m c hmem]
    constructor
    · exact Or.inl
    · rintro (h | rfl)
      · exact h
      · exact hmem
  · rw [upsert_not_mem kf fi fm m c hmem]
    simp [akeys]

theorem mem_email_tallyLines (lines : List String) (e : String)
    (he : e ∈ akeys (tallyLines lines)) :
    ∃ line ∈ lines, ∃ n d, parseLine line = some (e, n, d) := by
  suffices hgen : ∀ (ls : List String) (m : List (String × Tally)),
      e ∈ akeys (ls.foldl tallyStep m) →
      e ∈ akeys m ∨ ∃ line ∈ ls, ∃ n d, parseLine line = some (e, n, d) by
    rcases hgen lines.reverse [] he with h0 | ⟨line, hl, hx⟩
    · simp [akeys] at h0
    · exact ⟨line, List.mem_reverse.mp hl, hx⟩
  intro ls
  induction ls with
  | nil => intro m hm; exact Or.inl hm
  | cons l ls ih =>
    intro m hm
    rw [List.foldl_cons] at hm
    rcases ih (tallyStep m l) hm with h0 | ⟨line, hl, hx⟩
    · cases hp : parseLine l with
      | none =>
        rw [tallyStep_none m l hp] at h0
        exact Or.inl h0
      | some t =>
        obtain ⟨em, nm, dt⟩ := t
        have hts : tallyStep m l = upsert (fun p => p.1)
            (fun p => ⟨p.2.1, 1, dateOnly p.2.2⟩)
            (fun t p => bumpTally t (dateOnly p.2.2)) m (em, nm, dt) := by
          unfold tallyStep
          rw [hp]
        rw [hts, mem_akeys_upsert_iff] at h0
        rcases h0 with h0 | h0
        · exact Or.inl h0
        · exact Or.inr ⟨l, List.mem_cons_self _ _, nm, dt, by rw [hp, h0]⟩
    · exact Or.inr ⟨line, List.mem_cons_of_mem _ hl, hx⟩

theorem parseCommitLog_emails (out : String) :
    (parseCommitLog out).map (fun c => c.email) = akeys (tallyLines (logLines out)) := by
  unfold parseCommitLog akeys
  rw [List.map_map]
  rfl

/-- C8: a log line missing any of the three fields — such as
`"bob@x.com|Bob Smith|"` with an empty date — is skipped without error: it
is parsed to `none`, removing it from the line list leaves the entire tally
unchanged (so it contributes no record and affects no other address's count
or date), and an address with no valid parsed line never appears in the
parser's output. -/
theorem parser_skips_malformed :
    parseLine "bob@x.com|Bob Smith|" = none ∧
      (∀ (pre post : List String) (line : String), parseLine line = none →
        tallyLines (pre ++ line :: post) = tallyLines (pre ++ post)) ∧
      (∀ (output e : String),
        e ∈ (parseCommitLog output).map (fun c => c.email) →
        ∃ line ∈ logLines output, ∃ n d, parseLine line = some (e, n, d)) := by
  refine ⟨by decide, ?_, ?_⟩
  · intro pre post line hline
    unfold tallyLines
    rw [List.reverse_append, List.reverse_cons, List.foldl_append, List.foldl_append,
      List.reverse_append, List.foldl_append]
    congr 1
    simp [tallyStep_none _ _ hline]
  · intro output e he
    rw [parseCommitLog_emails] at he
    exact mem_email_tallyLines _ e he

theorem parser_skips_malformed_witness :
    tallyLines (["a@x|A|2024-01-02T00:00Z"] ++ "bob@x.com|Bob Smith|" :: []) =
      tallyLines (["a@x|A|2024-01-02T00:00Z"] ++ []) :=
  parser_skips_malformed.2.1 ["a@x|A|2024-01-02T00:00Z"] [] "bob@x.com|Bob Smith|"
    (by decide)

end PostprocessManifests
